import Mathlib

/-!
Shallow embedding of the procedural music generator (`src/main.py`) and
verification of its specification claims.

The program is a single Python file.  Its core pieces, translated here:

* `NOTES`   — note-name → frequency table (line 7);
* `MOODS`   — mood catalog: scale, chord progression, bpm (line 18);
* `create_waveform` — per-note additive synthesis with decay envelope (line 36);
* the melody-planning `while` loop inside `generate_music` (lines 71–79),
  modelled as `melodyLoop` with an explicit fuel and explicit random picks;
* the mixing loop of `generate_music` (lines 83–107), modelled as
  `renderItem` / `renderSeq`;
* the normalization step (lines 110–112), modelled as `normalize`.

Real arithmetic of the Python floats is modelled exactly: durations, rates
and frequencies are rationals where the code only does field arithmetic and
truncation, and real numbers where transcendental functions (`sin`, `exp`)
enter.  Python's `int(x)` is truncation toward zero (`truncInt`); Python's
`%` on nonnegative operands agrees with `Nat.mod`.  `random.choice(xs)`
is modelled by an arbitrary index stream reduced mod `xs.length`.  NumPy
operations that raise (`np.linspace` with a negative count, out-of-range
slice-assignment) are modelled by `Option`, `none` being the raised error.
-/

namespace MusicGen

/-- Python `int(x)` for a rational: truncation toward zero. -/
def truncInt (q : ℚ) : ℤ := if 0 ≤ q then ⌊q⌋ else ⌈q⌉

/-- The note-frequency table `NOTES` of `main.py` (line 7). -/
def NOTES : List (String × ℚ) :=
  [("C3", 130.81), ("D3", 146.83), ("E3", 164.81), ("F3", 174.61),
   ("G3", 196.00), ("A3", 220.00), ("B3", 246.94),
   ("C4", 261.63), ("D4", 293.66), ("Eb4", 311.13), ("E4", 329.63),
   ("F4", 349.23), ("G4", 392.00), ("Ab4", 415.30), ("A4", 440.00),
   ("B4", 493.88),
   ("C5", 523.25), ("D5", 587.33), ("E5", 659.25), ("G5", 783.99)]

/-- The rest sentinel `REST = "REST"` (line 15). -/
def REST : String := "REST"

/-- One mood of the catalog: scale, chord progression, tempo. -/
structure Mood where
  scale : List String
  chords : List (List String)
  bpm : ℚ
deriving DecidableEq, Repr

/-- The `"happy"` mood of `MOODS` (line 19). -/
def happy : Mood :=
  { scale := ["C4", "D4", "E4", "F4", "G4", "A4", "B4", "C5"],
    chords := [["C4", "E4", "G4"], ["G4", "B4", "D5"],
               ["A4", "C5", "E5"], ["F4", "A4", "C5"]],
    bpm := 120 }

/-- The `"sad"` mood of `MOODS` (line 24).  Its chord list mentions `"Ab3"`,
which is absent from `NOTES`. -/
def sad : Mood :=
  { scale := ["C4", "Eb4", "F4", "G4", "Ab4", "C5"],
    chords := [["C4", "Eb4", "G4"], ["Ab4", "C5", "Eb4"],
               ["F3", "Ab3", "C4"], ["G3", "A3", "D4"]],
    bpm := 75 }

/-- The `"dreamy"` mood of `MOODS` (line 29). -/
def dreamy : Mood :=
  { scale := ["C4", "E4", "G4", "A4", "C5", "E5", "G5"],
    chords := [["C4", "E4", "G4", "B4"], ["A3", "C4", "E4", "G4"]],
    bpm := 60 }

/-- The mood catalog `MOODS` of `main.py` (line 18). -/
def MOODS : List (String × Mood) :=
  [("happy", happy), ("sad", sad), ("dreamy", dreamy)]

/-- The fixed sample rate `sample_rate = 44100` (line 82). -/
def sample_rate : ℚ := 44100

/-- One melody event: a note name (or `REST`) and a duration in seconds
(the dicts appended at line 78). -/
structure MEvent where
  note : String
  duration : ℚ
deriving DecidableEq, Repr

/-- The rhythm candidates `[quarter, quarter/2, quarter*1.5]` (line 69),
with `quarter = 60/bpm` (line 68). -/
def rhythms (quarter : ℚ) : List ℚ := [quarter, quarter / 2, quarter * 1.5]

/-- The melody-planning `while` loop of `generate_music` (lines 71–79).
`rpick`/`npick` give the random index choices per step; fuel bounds the
iteration count, `none` meaning the fuel ran out before the loop condition
became false. -/
def melodyLoop (rh : List ℚ) (scale : List String) (total : ℚ)
    (rpick npick : ℕ → ℕ) : ℕ → ℚ → ℕ → Option (List MEvent)
  | 0, current, _ => if current < total then none else some []
  | fuel + 1, current, step =>
    if current < total then
      let d0 := rh.getD (rpick step % rh.length) 0
      let d := if current + d0 > total then total - current else d0
      let note := scale.getD (npick step % scale.length) REST
      Option.map (fun evs => ⟨note, d⟩ :: evs)
        (melodyLoop rh scale total rpick npick fuel (current + d) (step + 1))
    else some []

/-- The planner as invoked by `generate_music` (lines 64–79): the scale is
the mood's scale with `REST` appended, the rhythms come from the tempo. -/
def planMelody (m : Mood) (total : ℚ) (rpick npick : ℕ → ℕ) (fuel : ℕ) :
    Option (List MEvent) :=
  melodyLoop (rhythms (60 / m.bpm)) (m.scale ++ [REST]) total rpick npick fuel 0 0

/-- Raw (pre-envelope) sample of one instrument recipe at time `t`
(`create_waveform`, lines 41–55 of `main.py`). -/
noncomputable def rawWave (frequency : ℝ) (instrument : String) (t : ℝ) : ℝ :=
  if instrument = "piano" then
    0.6 * Real.sin (2 * Real.pi * frequency * t) +
    0.2 * Real.sin (2 * Real.pi * (frequency * 2) * t) +
    0.1 * Real.sin (2 * Real.pi * (frequency * 3) * t)
  else if instrument = "organ" then
    0.5 * Real.sin (2 * Real.pi * (frequency * 0.5) * t) +
    0.5 * Real.sin (2 * Real.pi * frequency * t) +
    0.3 * Real.sin (2 * Real.pi * (frequency * 2) * t)
  else if instrument = "retro_synth" then
    Real.sign (Real.sin (2 * Real.pi * frequency * t))
  else
    0.6 * Real.sin (2 * Real.pi * frequency * t) +
    0.2 * Real.sin (2 * Real.pi * (frequency * 2) * t)

/-- Entry `i` of `np.linspace(0., -5., N)` (the envelope exponents, line 58):
`-5·i/(N-1)` for `N ≥ 2`, the single start point `0` for `N = 1`. -/
def envExponent (N i : ℕ) : ℚ := if N ≤ 1 then 0 else (-5 * i) / ((N : ℚ) - 1)

/-- `create_waveform(frequency, duration, sample_rate, instrument)` (line 36).
The time axis is `np.linspace(0., duration, int(sample_rate*duration),
endpoint=False)`, i.e. `t i = i·duration/n`; the decay envelope
`exp(linspace(0,-5,n))` multiplies the recipe samples.  `none` models the
`ValueError` `np.linspace` raises when the sample count
`int(sample_rate*duration)` is negative. -/
noncomputable def create_waveform (frequency : ℝ) (duration samplerate : ℚ)
    (instrument : String) : Option (List ℝ) :=
  if truncInt (samplerate * duration) < 0 then none
  else some ((List.range (truncInt (samplerate * duration)).toNat).map (fun (i : ℕ) =>
    rawWave frequency instrument ((i : ℝ) *
      ((duration : ℝ) / (((truncInt (samplerate * duration)).toNat : ℕ) : ℝ))) *
    Real.exp ((envExponent (truncInt (samplerate * duration)).toNat i : ℚ) : ℝ)))

/-- State of the mixing loop of `generate_music` (lines 83–86): the global
sample buffer, the sample cursor `current_pos_samples`, and `chord_index`. -/
structure RState where
  buf : List ℝ
  pos : ℕ
  ci : ℕ

/-- NumPy slice-assignment `buf[pos : pos+len(w)] += w` (lines 94 and 103).
When the slice would run past the end of the buffer its length no longer
matches `w` and NumPy raises a broadcast error, modelled by `none`. -/
noncomputable def sliceAdd (buf : List ℝ) (pos : ℕ) (w : List ℝ) :
    Option (List ℝ) :=
  if pos + w.length ≤ buf.length then
    some (buf.take pos ++ (List.zipWith (fun a b => a + b) (buf.drop pos) w ++
      buf.drop (pos + w.length)))
  else none

/-- Body of the chord loop `for note_name in current_chord_notes` (lines
98–103): a chord note absent from `NOTES` is skipped, a present one is
synthesized with the literal `'organ'` timbre and added at gain `0.20`. -/
noncomputable def addChordNote (dur : ℚ) (pos : ℕ) (acc : Option (List ℝ))
    (noteName : String) : Option (List ℝ) :=
  match acc with
  | none => none
  | some buf =>
    match NOTES.lookup noteName with
    | none => some buf
    | some f =>
      match create_waveform (f : ℝ) dur sample_rate "organ" with
      | none => none
      | some w => sliceAdd buf pos (w.map (fun x => x * 0.20))

/-- Melody-voice addition for one event (lines 91–94): a non-rest note looks
up its frequency (`KeyError` on an unknown name is `none`), is synthesized
with the chosen instrument, and is added at gain `0.45`; a rest leaves the
buffer unchanged. -/
noncomputable def addMelody (instrument : String) (dur : ℚ) (noteName : String)
    (buf : List ℝ) (pos : ℕ) : Option (List ℝ) :=
  if noteName ≠ REST then
    match NOTES.lookup noteName with
    | none => none
    | some f =>
      match create_waveform (f : ℝ) dur sample_rate instrument with
      | none => none
      | some w => sliceAdd buf pos (w.map (fun x => x * 0.45))
  else some buf

/-- Chord-voice addition for one event (lines 97–103): fold `addChordNote`
over the notes of the current chord. -/
noncomputable def addChords (chord : List String) (dur : ℚ) (buf : List ℝ)
    (pos : ℕ) : Option (List ℝ) :=
  chord.foldl (addChordNote dur pos) (some buf)

/-- The cursor/chord-index transition of one loop iteration (lines 105–107):
advance the cursor by the event's `duration_samples`, then advance
`chord_index` cyclically exactly when the new cursor position modulo the bar
length `int(quarter·4·sample_rate)` is smaller than `duration_samples`. -/
def stepBar (barLen nChords : ℕ) (st : ℕ × ℕ) (ds : ℕ) : ℕ × ℕ :=
  if (st.1 + ds) % barLen < ds then (st.1 + ds, (st.2 + 1) % nChords)
  else (st.1 + ds, st.2)

/-- Cursor and chord index after a list of events with the given
`duration_samples` values, starting from `(0, 0)` (lines 85–86). -/
def barState (barLen nChords : ℕ) (dss : List ℕ) : ℕ × ℕ :=
  dss.foldl (stepBar barLen nChords) (0, 0)

/-- One iteration of `for item in melody_sequence` (lines 87–107): melody
voice via `addMelody`, chord voices of chord `chords[chord_index]` via
`addChords`, then the cursor advance and bar-boundary chord-index rule via
`stepBar`. -/
noncomputable def renderItem (instrument : String) (chords : List (List String))
    (quarter : ℚ) (st : RState) (item : MEvent) : Option RState :=
  match addMelody instrument item.duration item.note st.buf st.pos with
  | none => none
  | some b1 =>
    match addChords (chords.getD st.ci []) item.duration b1 st.pos with
    | none => none
    | some b2 =>
      some ⟨b2,
        (stepBar (truncInt (quarter * 4 * sample_rate)).toNat chords.length
          (st.pos, st.ci) (truncInt (item.duration * sample_rate)).toNat).1,
        (stepBar (truncInt (quarter * 4 * sample_rate)).toNat chords.length
          (st.pos, st.ci) (truncInt (item.duration * sample_rate)).toNat).2⟩

/-- The whole mixing loop, folding `renderItem` over the melody events. -/
noncomputable def renderSeq (instrument : String) (chords : List (List String))
    (quarter : ℚ) : RState → List MEvent → Option RState
  | st, [] => some st
  | st, item :: rest =>
    match renderItem instrument chords quarter st item with
    | none => none
    | some st2 => renderSeq instrument chords quarter st2 rest

/-- `np.max(np.abs(buf))` (line 110), with `0` for the empty buffer (all
samples are in absolute value at most this peak, and for a nonempty buffer
it is attained). -/
noncomputable def peak (xs : List ℝ) : ℝ := xs.foldr (fun x m => max |x| m) 0

/-- The normalization step (lines 110–112): divide every sample by the peak
absolute value when that peak is positive, otherwise leave the buffer
unchanged. -/
noncomputable def normalize (xs : List ℝ) : List ℝ :=
  if 0 < peak xs then xs.map (fun x => x / peak xs) else xs

/-- `generate_music` (line 61) without the file sink: mood lookup (`KeyError`
= `none` on an unknown mood), melody planning, mixing, normalization. -/
noncomputable def generate_music (moodKey instrument : String) (total : ℚ)
    (rpick npick : ℕ → ℕ) (fuel : ℕ) : Option (List ℝ) :=
  match MOODS.lookup moodKey with
  | none => none
  | some m =>
    match planMelody m total rpick npick fuel with
    | none => none
    | some evs =>
      match renderSeq instrument m.chords (60 / m.bpm)
          ⟨List.replicate (truncInt (sample_rate * total)).toNat 0, 0, 0⟩ evs with
      | none => none
      | some st => some (normalize st.buf)

theorem melodyLoop_invariant (rh : List ℚ) (scale : List String) (total : ℚ)
    (rpick npick : ℕ → ℕ) (hrh : ∀ x ∈ rh, 0 < x) (hne : rh ≠ [])
    (hsc : scale ≠ []) :
    ∀ fuel current step evs, current ≤ total →
      melodyLoop rh scale total rpick npick fuel current step = some evs →
      ((evs.map MEvent.duration).sum = total - current ∧
        ∀ e ∈ evs, 0 < e.duration ∧ e.note ∈ scale) := by
  have hlen : 0 < rh.length := List.length_pos.mpr hne
  have hslen : 0 < scale.length := List.length_pos.mpr hsc
  have hnote : ∀ step : ℕ, scale.getD (npick step % scale.length) REST ∈ scale := by
    intro step
    rw [List.getD_eq_getElem _ _ (Nat.mod_lt _ hslen)]
    exact List.getElem_mem _
  have hd0 : ∀ step : ℕ, 0 < rh.getD (rpick step % rh.length) 0 := by
    intro step
    apply hrh
    rw [List.getD_eq_getElem _ _ (Nat.mod_lt _ hlen)]
    exact List.getElem_mem _
  intro fuel
  induction fuel with
  | zero =>
    intro current step evs hle h
    by_cases hc : current < total
    · simp [melodyLoop, hc] at h
    · simp [melodyLoop, hc] at h
      subst h
      refine ⟨by simp [le_antisymm hle (not_lt.mp hc)], ?_⟩
      intro e he
      simp at he
  | succ n ih =>
    intro current step evs hle h
    by_cases hc : current < total
    · rw [melodyLoop] at h
      simp only [if_pos hc] at h
      by_cases hclip : current + rh.getD (rpick step % rh.length) 0 > total
      · simp only [if_pos hclip] at h
        rcases Option.map_eq_some'.mp h with ⟨tail, htail, hcons⟩
        subst hcons
        have hle' : current + (total - current) ≤ total := by linarith
        rcases ih (current + (total - current)) (step + 1) tail hle' htail
          with ⟨hsum, hall⟩
        refine ⟨?_, ?_⟩
        · simp only [List.map_cons, List.sum_cons, hsum]
          ring
        · intro e he
          rcases List.mem_cons.mp he with rfl | he'
          · exact ⟨by simpa using sub_pos.mpr hc, hnote step⟩
          · exact hall e he'
      · simp only [if_neg hclip] at h
        rcases Option.map_eq_some'.mp h with ⟨tail, htail, hcons⟩
        subst hcons
        have hle' : current + rh.getD (rpick step % rh.length) 0 ≤ total :=
          not_lt.mp hclip
        rcases ih (current + rh.getD (rpick step % rh.length) 0) (step + 1)
          tail hle' htail with ⟨hsum, hall⟩
        refine ⟨?_, ?_⟩
        · simp only [List.map_cons, List.sum_cons, hsum]
          ring
        · intro e he
          rcases List.mem_cons.mp he with rfl | he'
          · exact ⟨hd0 step, hnote step⟩
          · exact hall e he'
    · rw [melodyLoop] at h
      simp only [if_neg hc] at h
      injection h with h
      subst h
      refine ⟨by simp [le_antisymm hle (not_lt.mp hc)], ?_⟩
      intro e he
      simp at he

theorem mood_facts (name : String) (m : Mood) (hm : (name, m) ∈ MOODS) :
    0 < m.bpm ∧ m.scale ≠ [] ∧ m.chords ≠ [] := by
  simp [MOODS] at hm
  rcases hm with ⟨_, rfl⟩ | ⟨_, rfl⟩ | ⟨_, rfl⟩ <;>
    refine ⟨by norm_num [happy, sad, dreamy], by simp [happy, sad, dreamy], by simp [happy, sad, dreamy]⟩

theorem rhythms_pos (q : ℚ) (hq : 0 < q) : ∀ x ∈ rhythms q, 0 < x := by
  intro x hx
  simp [rhythms] at hx
  rcases hx with rfl | rfl | rfl <;> linarith

/-- C1: for every mood in the catalog and every total duration `d > 0`, any
event sequence the planning loop completes has event durations summing
exactly to `d`, and no event in it has duration `≤ 0`. -/
theorem planMelody_sum_durations (name : String) (m : Mood)
    (hm : (name, m) ∈ MOODS) (d : ℚ) (hd : 0 < d)
    (rpick npick : ℕ → ℕ) (fuel : ℕ) (evs : List MEvent)
    (h : planMelody m d rpick npick fuel = some evs) :
    (evs.map MEvent.duration).sum = d ∧ ∀ e ∈ evs, 0 < e.duration := by
  rcases mood_facts name m hm with ⟨hbpm, hsc, -⟩
  have hq : 0 < 60 / m.bpm := by positivity
  have hinv := melodyLoop_invariant (rhythms (60 / m.bpm)) (m.scale ++ [REST])
    d rpick npick (rhythms_pos _ hq) (by simp [rhythms]) (by simp)
    fuel 0 0 evs (le_of_lt hd) h
  rcases hinv with ⟨hsum, hall⟩
  exact ⟨by simpa using hsum, fun e he => (hall e he).1⟩

/-- Witness for C1 at the `"happy"` mood, `d = 1`, constant random picks. -/
theorem planMelody_sum_durations_witness :
    (List.map MEvent.duration [⟨"C4", (1 : ℚ) / 2⟩, ⟨"C4", (1 : ℚ) / 2⟩]).sum = 1 :=
  (planMelody_sum_durations "happy" happy (by decide) 1 (by norm_num)
    (fun _ => 0) (fun _ => 0) 4 [⟨"C4", (1 : ℚ) / 2⟩, ⟨"C4", (1 : ℚ) / 2⟩]
    (by norm_num [planMelody, melodyLoop, rhythms, happy, REST])).1

theorem melodyLoop_isSome (rh : List ℚ) (scale : List String) (total : ℚ)
    (rpick npick : ℕ → ℕ) (minR : ℚ) (hmin : 0 < minR)
    (hlow : ∀ x ∈ rh, minR ≤ x) (hne : rh ≠ []) :
    ∀ fuel current step, (⌈(total - current) / minR⌉).toNat ≤ fuel →
      (melodyLoop rh scale total rpick npick fuel current step).isSome = true := by
  have hlen : 0 < rh.length := List.length_pos.mpr hne
  have hd0 : ∀ step : ℕ, minR ≤ rh.getD (rpick step % rh.length) 0 := by
    intro step
    apply hlow
    rw [List.getD_eq_getElem _ _ (Nat.mod_lt _ hlen)]
    exact List.getElem_mem _
  intro fuel
  induction fuel with
  | zero =>
    intro current step hfuel
    have h0 : (⌈(total - current) / minR⌉).toNat = 0 := Nat.le_zero.mp hfuel
    have h1 : ⌈(total - current) / minR⌉ ≤ 0 := Int.toNat_eq_zero.mp h0
    have h2 : (total - current) / minR ≤ 0 := by
      have := Int.ceil_le.mp h1
      simpa using this
    have h3 : total - current ≤ 0 := by
      by_contra hcon
      push_neg at hcon
      have : 0 < (total - current) / minR := div_pos hcon hmin
      linarith
    have hc : ¬ current < total := by linarith
    simp [melodyLoop, hc]
  | succ n ih =>
    intro current step hfuel
    by_cases hc : current < total
    · rw [melodyLoop]
      simp only [if_pos hc]
      by_cases hclip : current + rh.getD (rpick step % rh.length) 0 > total
      · simp only [if_pos hclip]
        rw [Option.isSome_map']
        apply ih (current + (total - current)) (step + 1)
        have : total - (current + (total - current)) = 0 := by ring
        rw [this]
        simp
      · simp only [if_neg hclip]
        rw [Option.isSome_map']
        apply ih (current + rh.getD (rpick step % rh.length) 0) (step + 1)
        have hstep : 1 ≤ rh.getD (rpick step % rh.length) 0 / minR :=
          (one_le_div hmin).mpr (hd0 step)
        have hdiv : (total - (current + rh.getD (rpick step % rh.length) 0)) / minR ≤
            (total - current) / minR - 1 := by
          rw [show total - (current + rh.getD (rpick step % rh.length) 0) =
            (total - current) - rh.getD (rpick step % rh.length) 0 by ring, sub_div]
          linarith
        have hceil : ⌈(total - (current + rh.getD (rpick step % rh.length) 0)) / minR⌉ ≤
            ⌈(total - current) / minR⌉ - 1 := by
          calc ⌈(total - (current + rh.getD (rpick step % rh.length) 0)) / minR⌉
              ≤ ⌈(total - current) / minR - 1⌉ := Int.ceil_le_ceil hdiv
            _ = ⌈(total - current) / minR⌉ - 1 := by
                rw [show ((1 : ℚ)) = ((1 : ℤ) : ℚ) by norm_num, Int.ceil_sub_int]
        have hB : ⌈(total - current) / minR⌉ ≤ (n : ℤ) + 1 := by
          calc ⌈(total - current) / minR⌉ ≤ ((⌈(total - current) / minR⌉).toNat : ℤ) :=
              Int.self_le_toNat _
            _ ≤ (n : ℤ) + 1 := by exact_mod_cast hfuel
        apply Int.toNat_le.mpr
        omega
    · rw [melodyLoop]
      simp [hc]

/-- C8: for every mood in the catalog and every total duration, the
melody-planning loop terminates — fuel `⌈d·bpm/30⌉` (the worst case where
every random pick is the shortest rhythm, `quarter/2 = 30/bpm` seconds)
already makes it finish — and no zero-duration event is ever emitted. -/
theorem planMelody_terminates (name : String) (m : Mood)
    (hm : (name, m) ∈ MOODS) (d : ℚ) (rpick npick : ℕ → ℕ) :
    (planMelody m d rpick npick (⌈d * m.bpm / 30⌉).toNat).isSome = true ∧
    ∀ evs, planMelody m d rpick npick (⌈d * m.bpm / 30⌉).toNat = some evs →
      ∀ e ∈ evs, 0 < e.duration := by
  rcases mood_facts name m hm with ⟨hbpm, hsc, -⟩
  have hq : 0 < 60 / m.bpm := by positivity
  have hmin : 0 < 30 / m.bpm := by positivity
  constructor
  · apply melodyLoop_isSome (rhythms (60 / m.bpm)) (m.scale ++ [REST]) d rpick npick
      (30 / m.bpm) hmin
    · intro x hx
      have hq2 : 30 / m.bpm = 60 / m.bpm / 2 := by ring
      simp [rhythms] at hx
      rcases hx with rfl | rfl | rfl
      · rw [hq2]; linarith
      · exact le_of_eq hq2
      · rw [hq2]; nlinarith
    · simp [rhythms]
    · rw [show d - 0 = d by ring, div_div_eq_mul_div]
  · intro evs h e he
    by_cases hd : 0 < d
    · exact ((melodyLoop_invariant (rhythms (60 / m.bpm)) (m.scale ++ [REST]) d
        rpick npick (rhythms_pos _ hq) (by simp [rhythms]) (by simp)
        _ 0 0 evs (le_of_lt hd) h).2 e he).1
    · have hc : ¬ (0 : ℚ) < d := hd
      rcases hF : (⌈d * m.bpm / 30⌉).toNat with _ | n
      · rw [hF] at h
        simp [planMelody, melodyLoop, hc] at h
        subst h
        simp at he
      · rw [hF] at h
        rw [planMelody, melodyLoop] at h
        simp only [if_neg hc] at h
        injection h with h
        subst h
        simp at he

/-- Witness for C8 at the `"happy"` mood, `d = 1`, constant random picks. -/
theorem planMelody_terminates_witness :
    (planMelody happy 1 (fun _ => 0) (fun _ => 0)
      (⌈(1 : ℚ) * happy.bpm / 30⌉).toNat).isSome = true :=
  (planMelody_terminates "happy" happy (by decide) 1 (fun _ => 0) (fun _ => 0)).1

theorem rawWave_zero_freq (instrument : String) (t : ℝ) :
    rawWave 0 instrument t = 0 := by
  unfold rawWave
  split_ifs <;> simp

theorem rawWave_retro (f t : ℝ) :
    rawWave f "retro_synth" t = Real.sign (Real.sin (2 * Real.pi * f * t)) := by
  rw [rawWave, if_neg (by decide), if_neg (by decide), if_pos rfl]

/-- C2 counterexample: at sample rate `1` and duration `3/5` the synthesized
buffer has `int(1·3/5) = 0` samples, while `round(1·3/5) = 1`: the length is
the truncation of `sampleRate·duration`, not its rounding. -/
theorem create_waveform_length_cex :
    Option.map List.length (create_waveform 440 (3 / 5) 1 "piano") = some 0 ∧
    round ((1 : ℚ) * (3 / 5)) = 1 := by
  constructor
  · rw [create_waveform]
    norm_num [truncInt]
  · norm_num [round_eq]

/-- C2 amended: for every frequency `f`, duration `d > 0`, sample rate
`r > 0` and instrument identifier, the buffer returned by `create_waveform`
has length `int(r·d) = ⌊r·d⌋` (truncation toward zero, which for positive
`r·d` is the floor — not `round(r·d)`). -/
theorem create_waveform_length (f : ℝ) (d r : ℚ) (i : String)
    (hd : 0 < d) (hr : 0 < r) :
    Option.map List.length (create_waveform f d r i) = some (⌊r * d⌋).toNat := by
  have h0 : 0 ≤ r * d := by positivity
  have h1 : ¬ truncInt (r * d) < 0 := by
    simp [truncInt, h0, Int.floor_nonneg.mpr h0, not_lt]
  rw [create_waveform]
  simp only [if_neg h1, Option.map_some', List.length_map, List.length_range]
  simp [truncInt, h0]

/-- Witness for the amended C2 at `f = 440`, `d = 1`, `r = 4`. -/
theorem create_waveform_length_witness :
    Option.map List.length (create_waveform 440 1 4 "piano") = some 4 := by
  have h := create_waveform_length 440 1 4 "piano" (by norm_num) (by norm_num)
  rw [h]
  norm_num
  decide

/-- C5 counterexample: for duration `-1` (a non-positive duration) the
sample count `int(44100·(-1))` is negative and `np.linspace` raises
`ValueError`: the synthesizer errors instead of returning a silent buffer. -/
theorem create_waveform_degenerate_cex :
    create_waveform 440 (-1) 44100 "piano" = none := by
  have hn : truncInt ((44100 : ℚ) * (-1)) = -44100 := by
    rw [truncInt, if_neg (by norm_num),
      show (44100 : ℚ) * (-1) = ((-44100 : ℤ) : ℚ) by norm_num, Int.ceil_intCast]
  rw [create_waveform, hn, if_pos (by norm_num)]

/-- C5 amended: with a positive sample rate `r`, the synthesizer handles a
degenerate input without an error only while `int(r·d) ≥ 0`: for `d ≤ 0`
with `r·d > -1` it returns the empty buffer, for `r·d ≤ -1` it raises
(`none`), and for frequency `0` every returned sample is `0`.  (A negative
frequency with positive duration instead yields the full-length
phase-inverted waveform, which is generally not silent.) -/
theorem create_waveform_degenerate (f : ℝ) (d r : ℚ) (i : String) (hr : 0 < r) :
    (d ≤ 0 → -1 < r * d → create_waveform f d r i = some []) ∧
    (r * d ≤ -1 → create_waveform f d r i = none) ∧
    (∀ l, create_waveform 0 d r i = some l → ∀ x ∈ l, x = 0) := by
  refine ⟨?_, ?_, ?_⟩
  · intro hd hgt
    have hle : r * d ≤ 0 := mul_nonpos_of_nonneg_of_nonpos hr.le hd
    have hn : truncInt (r * d) = 0 := by
      rcases eq_or_lt_of_le hle with he | hlt
      · simp [truncInt, he]
      · have hne : ¬ 0 ≤ r * d := not_le.mpr hlt
        simp only [truncInt, if_neg hne]
        rw [Int.ceil_eq_zero_iff]
        constructor
        · simpa using hgt
        · simpa using hle
    rw [create_waveform, hn, if_neg (by norm_num)]
    simp
  · intro hle
    have hneg : ¬ 0 ≤ r * d := by linarith
    have hn : truncInt (r * d) ≤ -1 := by
      simp only [truncInt, if_neg hneg]
      exact Int.ceil_le.mpr (by push_cast; linarith)
    rw [create_waveform, if_pos (by omega)]
  · intro l hl x hx
    rw [create_waveform] at hl
    by_cases hn : truncInt (r * d) < 0
    · simp [hn] at hl
    · simp only [if_neg hn, Option.some_inj] at hl
      subst hl
      rcases List.mem_map.mp hx with ⟨j, -, rfl⟩
      rw [rawWave_zero_freq, zero_mul]

/-- Witness for the amended C5 at `d = 0`, `r = 44100`: the empty buffer. -/
theorem create_waveform_degenerate_witness :
    create_waveform 0 0 44100 "retro_synth" = some [] :=
  (create_waveform_degenerate 0 0 44100 "retro_synth" (by norm_num)).1
    le_rfl (by norm_num)

/-- C6 counterexample: for `f = 1`, `d = 1`, `r = 4`, sample index 1 of the
`retro_synth` buffer is `sign(sin(π/2))·exp(-5/3) = exp(-5/3)`, a value that
is neither `-1` nor `0` nor `1` — the decay envelope multiplies the square
wave, so the returned buffer leaves the three-element value set. -/
theorem retro_synth_values_cex :
    Option.map (fun l => l.getD 1 0) (create_waveform 1 1 4 "retro_synth") =
      some (Real.exp ((-5 : ℝ) / 3)) ∧
    Real.exp ((-5 : ℝ) / 3) ≠ -1 ∧ Real.exp ((-5 : ℝ) / 3) ≠ 0 ∧
    Real.exp ((-5 : ℝ) / 3) ≠ 1 := by
  refine ⟨?_, ?_, Real.exp_ne_zero _, ?_⟩
  · have hn : truncInt ((4 : ℚ) * 1) = 4 := by
      rw [truncInt, if_pos (by norm_num),
        show (4 : ℚ) * 1 = ((4 : ℤ) : ℚ) by norm_num, Int.floor_intCast]
    rw [create_waveform, hn]
    rw [if_neg (by norm_num)]
    have hrange : List.range (4 : ℤ).toNat = [0, 1, 2, 3] := by decide
    rw [hrange]
    simp only [List.map_cons, List.map_nil, Option.map_some']
    have hget : ∀ a b c d : ℝ, ([a, b, c, d].getD 1 (0 : ℝ)) = b := by
      intro a b c d
      rfl
    rw [hget, rawWave_retro]
    have harg : 2 * Real.pi * 1 *
        ((1 : ℕ) * (((1 : ℚ) : ℝ) / (((4 : ℤ).toNat : ℕ) : ℝ))) = Real.pi / 2 := by
      push_cast
      ring
    rw [harg, Real.sin_pi_div_two, Real.sign_of_pos one_pos, one_mul]
    have henv : envExponent (4 : ℤ).toNat 1 = -5 / 3 := by
      show envExponent 4 1 = -5 / 3
      rw [envExponent]
      norm_num
    rw [henv]
    norm_num
  · have hpos := Real.exp_pos ((-5 : ℝ) / 3)
    intro h
    rw [h] at hpos
    linarith
  · intro h
    rw [Real.exp_eq_one_iff] at h
    norm_num at h

/-- C6 amended: the raw `retro_synth` recipe (before the decay envelope) is
`sign(sin(2πft))`, always in the set consisting of `-1`, `0` and `1`; the
buffer returned by `create_waveform` consists of those values scaled by the
positive decay envelope, hence each sample has absolute value at most 1. -/
theorem retro_synth_values (f : ℝ) (d r : ℚ) :
    (∀ t : ℝ, rawWave f "retro_synth" t = -1 ∨ rawWave f "retro_synth" t = 0 ∨
      rawWave f "retro_synth" t = 1) ∧
    (∀ l, create_waveform f d r "retro_synth" = some l → ∀ x ∈ l, |x| ≤ 1) := by
  have hraw : ∀ t : ℝ, rawWave f "retro_synth" t = -1 ∨
      rawWave f "retro_synth" t = 0 ∨ rawWave f "retro_synth" t = 1 := by
    intro t
    rw [rawWave_retro]
    rcases lt_trichotomy (Real.sin (2 * Real.pi * f * t)) 0 with h | h | h
    · exact Or.inl (Real.sign_of_neg h)
    · exact Or.inr (Or.inl (by rw [h, Real.sign_zero]))
    · exact Or.inr (Or.inr (Real.sign_of_pos h))
  refine ⟨hraw, ?_⟩
  intro l hl x hx
  rw [create_waveform] at hl
  by_cases hn : truncInt (r * d) < 0
  · simp [hn] at hl
  · simp only [if_neg hn, Option.some_inj] at hl
    subst hl
    rcases List.mem_map.mp hx with ⟨j, -, rfl⟩
    rw [abs_mul, Real.abs_exp]
    have h1 : |rawWave f "retro_synth"
        ((j : ℝ) * ((d : ℝ) / (((truncInt (r * d)).toNat : ℕ) : ℝ)))| ≤ 1 := by
      rcases hraw ((j : ℝ) * ((d : ℝ) / (((truncInt (r * d)).toNat : ℕ) : ℝ)))
        with h | h | h <;> rw [h] <;> norm_num
    have h2 : Real.exp ((envExponent (truncInt (r * d)).toNat j : ℚ) : ℝ) ≤ 1 := by
      have henv : (envExponent (truncInt (r * d)).toNat j : ℚ) ≤ 0 := by
        rw [envExponent]
        split_ifs with hNle
        · exact le_rfl
        · rw [div_nonpos_iff]
          refine Or.inr ⟨?_, ?_⟩
          · have hj : (0 : ℚ) ≤ 5 * (j : ℚ) := by positivity
            linarith
          · push_neg at hNle
            have h2N : (2 : ℚ) ≤ ((truncInt (r * d)).toNat : ℚ) := by
              exact_mod_cast hNle
            linarith
      calc Real.exp ((envExponent (truncInt (r * d)).toNat j : ℚ) : ℝ)
          ≤ Real.exp 0 := Real.exp_le_exp.mpr (by exact_mod_cast henv)
        _ = 1 := Real.exp_zero
    simpa using mul_le_mul h1 h2 (Real.exp_pos _).le (by norm_num : (0 : ℝ) ≤ 1)

/-- Witness for the amended C6: the value-set disjunction at `f = 1`,
`t = 0`. -/
theorem retro_synth_values_witness :
    rawWave 1 "retro_synth" 0 = -1 ∨ rawWave 1 "retro_synth" 0 = 0 ∨
      rawWave 1 "retro_synth" 0 = 1 :=
  (retro_synth_values 1 1 1).1 0

theorem peak_cons (a : ℝ) (t : List ℝ) : peak (a :: t) = max |a| (peak t) := rfl

theorem peak_nonneg (xs : List ℝ) : 0 ≤ peak xs := by
  induction xs with
  | nil => simp [peak]
  | cons a t ih => rw [peak_cons]; exact le_max_of_le_right ih

theorem abs_le_peak (x : ℝ) (xs : List ℝ) (hx : x ∈ xs) : |x| ≤ peak xs := by
  induction xs with
  | nil => simp at hx
  | cons a t ih =>
    rw [peak_cons]
    rcases List.mem_cons.mp hx with rfl | hx'
    · exact le_max_left _ _
    · exact le_max_of_le_right (ih hx')

theorem peak_map_div (xs : List ℝ) (m : ℝ) (hm : 0 < m) :
    peak (xs.map (fun x => x / m)) = peak xs / m := by
  induction xs with
  | nil => simp [peak]
  | cons a t ih =>
    rw [List.map_cons, peak_cons, peak_cons, ih, abs_div, abs_of_pos hm,
      max_div_div_right hm.le]

theorem normalize_cases (xs : List ℝ) :
    (normalize xs = xs ∧ ∀ x ∈ xs, x = 0) ∨
    (0 < peak xs ∧ normalize xs = xs.map (fun x => x / peak xs) ∧
      peak (normalize xs) = 1) := by
  by_cases h : 0 < peak xs
  · right
    refine ⟨h, by rw [normalize, if_pos h], ?_⟩
    rw [normalize, if_pos h, peak_map_div _ _ h, div_self (ne_of_gt h)]
  · left
    have h0 : peak xs = 0 := le_antisymm (not_lt.mp h) (peak_nonneg xs)
    refine ⟨by rw [normalize, if_neg h], ?_⟩
    intro x hx
    have hle := abs_le_peak x xs hx
    rw [h0] at hle
    exact abs_eq_zero.mp (le_antisymm hle (abs_nonneg x))

/-- C3: the normalization step either leaves an all-zero buffer unchanged,
or divides every sample by the nonzero peak so that the peak absolute value
of the result is exactly 1; consequently any buffer `generate_music` hands
to quantization is all-zero or has peak exactly 1. -/
theorem normalize_peak_invariant :
    (∀ xs : List ℝ, (normalize xs = xs ∧ ∀ x ∈ xs, x = 0) ∨
      (0 < peak xs ∧ normalize xs = xs.map (fun x => x / peak xs) ∧
        peak (normalize xs) = 1)) ∧
    (∀ moodKey instrument total rpick npick fuel out,
      generate_music moodKey instrument total rpick npick fuel = some out →
      (∀ x ∈ out, x = 0) ∨ peak out = 1) := by
  refine ⟨normalize_cases, ?_⟩
  intro moodKey instrument total rpick npick fuel out h
  rw [generate_music] at h
  cases hm : MOODS.lookup moodKey with
  | none => rw [hm] at h; simp at h
  | some m =>
    rw [hm] at h
    simp only at h
    cases hp : planMelody m total rpick npick fuel with
    | none => rw [hp] at h; simp at h
    | some evs =>
      rw [hp] at h
      simp only at h
      cases hr : renderSeq instrument m.chords (60 / m.bpm)
          ⟨List.replicate (truncInt (sample_rate * total)).toNat 0, 0, 0⟩ evs with
      | none => rw [hr] at h; simp at h
      | some st =>
        rw [hr] at h
        simp only [Option.some_inj] at h
        subst h
        rcases normalize_cases st.buf with ⟨he, hz⟩ | ⟨-, -, hp1⟩
        · rw [he]
          exact Or.inl hz
        · exact Or.inr hp1

/-- Witness for C3: a one-sample buffer normalizes to peak exactly 1. -/
theorem normalize_peak_invariant_witness : peak (normalize [(42 : ℝ)]) = 1 := by
  rcases normalize_peak_invariant.1 [(42 : ℝ)] with ⟨-, hz⟩ | ⟨-, -, hp⟩
  · exact absurd (hz 42 (by simp)) (by norm_num)
  · exact hp

theorem truncInt_intCast (z : ℤ) : truncInt ((z : ℤ) : ℚ) = z := by
  rw [truncInt]
  split_ifs <;> simp

theorem stepBar_fst (barLen nChords : ℕ) (st : ℕ × ℕ) (ds : ℕ) :
    (stepBar barLen nChords st ds).1 = st.1 + ds := by
  rw [stepBar]
  split_ifs <;> rfl

theorem barState_replicate (ds nc : ℕ) (hds : 0 < ds) (k : ℕ) :
    barState (4 * ds) nc (List.replicate k ds) = (k * ds, k / 4 % nc) := by
  induction k with
  | zero => simp [barState]
  | succ k ih =>
    rw [barState, List.replicate_succ', List.foldl_append,
      show List.foldl (stepBar (4 * ds) nc) (0, 0) (List.replicate k ds) =
        barState (4 * ds) nc (List.replicate k ds) from rfl, ih]
    simp only [stepBar, List.foldl_cons, List.foldl_nil]
    have hmod : (k * ds + ds) % (4 * ds) = ds * ((k + 1) % 4) := by
      rw [show k * ds + ds = ds * (k + 1) by ring, show 4 * ds = ds * 4 by ring,
        Nat.mul_mod_mul_left]
    rw [hmod]
    by_cases h4 : (k + 1) % 4 = 0
    · rw [if_pos (by rw [h4, Nat.mul_zero]; exact hds)]
      have hdiv : (k + 1) / 4 = k / 4 + 1 :=
        Nat.succ_div_of_dvd (Nat.dvd_of_mod_eq_zero h4)
      rw [hdiv]
      simp only [Prod.mk.injEq]
      exact ⟨by ring, by rw [Nat.mod_add_mod]⟩
    · have hge : ds ≤ ds * ((k + 1) % 4) :=
        Nat.le_mul_of_pos_right ds (Nat.pos_of_ne_zero h4)
      rw [if_neg (not_lt.mpr hge)]
      have hndvd : ¬ 4 ∣ (k + 1) := by
        intro hdvd
        exact h4 (Nat.dvd_iff_mod_eq_zero.mp hdvd)
      have hdiv : (k + 1) / 4 = k / 4 := by
        rw [Nat.succ_div, if_neg hndvd, Nat.add_zero]
      rw [hdiv]
      simp only [Prod.mk.injEq]
      exact ⟨by ring, trivial⟩

theorem renderItem_cursor (instrument : String) (chords : List (List String))
    (quarter : ℚ) (st : RState) (item : MEvent) (st2 : RState)
    (h : renderItem instrument chords quarter st item = some st2) :
    (st2.pos, st2.ci) = stepBar (truncInt (quarter * 4 * sample_rate)).toNat
      chords.length (st.pos, st.ci)
      (truncInt (item.duration * sample_rate)).toNat := by
  rw [renderItem] at h
  cases ha : addMelody instrument item.duration item.note st.buf st.pos with
  | none => rw [ha] at h; simp at h
  | some b1 =>
    rw [ha] at h
    simp only at h
    cases hb : addChords (chords.getD st.ci []) item.duration b1 st.pos with
    | none => rw [hb] at h; simp at h
    | some b2 =>
      rw [hb] at h
      simp only [Option.some_inj] at h
      subst h
      exact Prod.mk.eta

/-- C4: during render the chord index advances cyclically,
`(index+1) mod numChords`, exactly when the advanced cursor position modulo
the bar length `int(quarter·4·sampleRate)` is smaller than the event's
length in samples, and stays unchanged otherwise (the `stepBar` rule, which
is what each successful `renderItem` applies to its cursor/chord-index
pair); and for each catalog mood, a melody of uniform quarter-note events
advances the chord index exactly once every 4th event: after `k` events the
index is `(k/4) mod numChords`. -/
theorem chord_advance_bar_rule (name : String) (m : Mood)
    (hm : (name, m) ∈ MOODS) :
    (∀ barLen nChords pos ci ds, stepBar barLen nChords (pos, ci) ds =
      (pos + ds, if (pos + ds) % barLen < ds then (ci + 1) % nChords else ci)) ∧
    (∀ instrument chords quarter st item st2,
      renderItem instrument chords quarter st item = some st2 →
      (RState.pos st2, RState.ci st2) =
        stepBar (truncInt (quarter * 4 * sample_rate)).toNat chords.length
          (RState.pos st, RState.ci st)
          (truncInt (item.duration * sample_rate)).toNat) ∧
    (∀ k, (barState (truncInt ((60 / m.bpm) * 4 * sample_rate)).toNat
        m.chords.length
        (List.replicate k (truncInt ((60 / m.bpm) * sample_rate)).toNat)).2 =
      k / 4 % m.chords.length) := by
  refine ⟨?_, ?_, ?_⟩
  · intro barLen nChords pos ci ds
    rw [stepBar]
    split_ifs <;> rfl
  · intro instrument chords quarter st item st2 h
    exact renderItem_cursor instrument chords quarter st item st2 h
  · simp only [MOODS, List.mem_cons, List.not_mem_nil, or_false] at hm
    rcases hm with h | h | h <;> rw [Prod.mk.injEq] at h <;>
      rcases h with ⟨-, rfl⟩
    · intro k
      have hds : (truncInt ((60 / happy.bpm) * sample_rate)).toNat = 22050 := by
        rw [show (60 / happy.bpm) * sample_rate = ((22050 : ℤ) : ℚ) by
          norm_num [happy, sample_rate], truncInt_intCast]
        decide
      have hB : (truncInt ((60 / happy.bpm) * 4 * sample_rate)).toNat =
          4 * 22050 := by
        rw [show (60 / happy.bpm) * 4 * sample_rate = ((88200 : ℤ) : ℚ) by
          norm_num [happy, sample_rate], truncInt_intCast]
        decide
      rw [hds, hB, barState_replicate 22050 happy.chords.length (by norm_num) k]
    · intro k
      have hds : (truncInt ((60 / sad.bpm) * sample_rate)).toNat = 35280 := by
        rw [show (60 / sad.bpm) * sample_rate = ((35280 : ℤ) : ℚ) by
          norm_num [sad, sample_rate], truncInt_intCast]
        decide
      have hB : (truncInt ((60 / sad.bpm) * 4 * sample_rate)).toNat =
          4 * 35280 := by
        rw [show (60 / sad.bpm) * 4 * sample_rate = ((141120 : ℤ) : ℚ) by
          norm_num [sad, sample_rate], truncInt_intCast]
        decide
      rw [hds, hB, barState_replicate 35280 sad.chords.length (by norm_num) k]
    · intro k
      have hds : (truncInt ((60 / dreamy.bpm) * sample_rate)).toNat = 44100 := by
        rw [show (60 / dreamy.bpm) * sample_rate = ((44100 : ℤ) : ℚ) by
          norm_num [dreamy, sample_rate], truncInt_intCast]
        decide
      have hB : (truncInt ((60 / dreamy.bpm) * 4 * sample_rate)).toNat =
          4 * 44100 := by
        rw [show (60 / dreamy.bpm) * 4 * sample_rate = ((176400 : ℤ) : ℚ) by
          norm_num [dreamy, sample_rate], truncInt_intCast]
        decide
      rw [hds, hB, barState_replicate 44100 dreamy.chords.length (by norm_num) k]

/-- Witness for C4: the uniform quarter-note scenario for `"happy"` at
`k = 4` events. -/
theorem chord_advance_bar_rule_witness :
    (barState (truncInt ((60 / happy.bpm) * 4 * sample_rate)).toNat
      happy.chords.length
      (List.replicate 4 (truncInt ((60 / happy.bpm) * sample_rate)).toNat)).2 =
    4 / 4 % happy.chords.length :=
  (chord_advance_bar_rule "happy" happy (by decide)).2.2 4

theorem addChordNote_unresolved (dur : ℚ) (pos : ℕ) (nb : String)
    (h : NOTES.lookup nb = none) :
    ∀ acc : Option (List ℝ), addChordNote dur pos acc nb = acc := by
  intro acc
  cases acc with
  | none => rfl
  | some buf => simp [addChordNote, h]

theorem addChordNote_resolved (dur : ℚ) (pos : ℕ) (buf : List ℝ) (nb : String)
    (f : ℚ) (h : NOTES.lookup nb = some f) :
    addChordNote dur pos (some buf) nb =
      Option.bind (create_waveform (f : ℝ) dur sample_rate "organ")
        (fun w => sliceAdd buf pos (w.map (fun x => x * 0.20))) := by
  simp only [addChordNote, h]
  cases hw : create_waveform (f : ℝ) dur sample_rate "organ" with
  | none => rfl
  | some w => rfl

theorem addChords_filter_resolvable (dur : ℚ) (pos : ℕ) :
    ∀ (chord : List String) (acc : Option (List ℝ)),
      chord.foldl (addChordNote dur pos) acc =
      (chord.filter (fun nb => (NOTES.lookup nb).isSome)).foldl
        (addChordNote dur pos) acc := by
  intro chord
  induction chord with
  | nil => intro acc; rfl
  | cons a t ih =>
    intro acc
    by_cases ha : (NOTES.lookup a).isSome = true
    · rw [List.filter_cons_of_pos (by simpa using ha), List.foldl_cons,
        List.foldl_cons, ih]
    · rw [List.filter_cons_of_neg (by simpa using ha), List.foldl_cons, ih]
      cases hn : NOTES.lookup a with
      | some f => rw [hn] at ha; simp at ha
      | none => rw [addChordNote_unresolved dur pos a hn acc]

/-- C7: chord notes are mixed with the literal `'organ'` timbre at gain
`0.20` regardless of the melody instrument: an unresolvable chord note
leaves the buffer unchanged and raises nothing (the chord fold equals the
fold over only the resolvable notes), a resolvable one contributes the
organ waveform scaled by `0.20`, and the whole per-event processing of a
rest event (whose only contribution is the chord voice) is independent of
the chosen instrument. -/
theorem chords_organ_gain_skip :
    (∀ (dur : ℚ) (pos : ℕ) (buf : List ℝ) (nb : String),
      NOTES.lookup nb = none → addChordNote dur pos (some buf) nb = some buf) ∧
    (∀ (dur : ℚ) (pos : ℕ) (buf : List ℝ) (nb : String) (f : ℚ),
      NOTES.lookup nb = some f →
      addChordNote dur pos (some buf) nb =
        Option.bind (create_waveform (f : ℝ) dur sample_rate "organ")
          (fun w => sliceAdd buf pos (w.map (fun x => x * 0.20)))) ∧
    (∀ (chord : List String) (dur : ℚ) (buf : List ℝ) (pos : ℕ),
      addChords chord dur buf pos =
      addChords (chord.filter (fun nb => (NOTES.lookup nb).isSome)) dur buf pos) ∧
    (∀ (i1 i2 : String) (chords : List (List String)) (quarter : ℚ)
      (st : RState) (item : MEvent), item.note = REST →
      renderItem i1 chords quarter st item = renderItem i2 chords quarter st item) := by
  refine ⟨?_, ?_, ?_, ?_⟩
  · intro dur pos buf nb h
    exact addChordNote_unresolved dur pos nb h (some buf)
  · intro dur pos buf nb f h
    exact addChordNote_resolved dur pos buf nb f h
  · intro chord dur buf pos
    exact addChords_filter_resolvable dur pos chord (some buf)
  · intro i1 i2 chords quarter st item hrest
    rw [renderItem, renderItem]
    have hmel : ∀ ins : String,
        addMelody ins item.duration item.note st.buf st.pos = some st.buf := by
      intro ins
      rw [addMelody, if_neg (by simp [hrest])]
    rw [hmel i1, hmel i2]

/-- Witness for C7: the `"Ab3"` chord note of the `"sad"` mood is absent
from `NOTES` and is skipped without error. -/
theorem chords_organ_gain_skip_witness :
    addChordNote 1 0 (some []) "Ab3" = some [] :=
  chords_organ_gain_skip.1 1 0 [] "Ab3" (by decide)

theorem planMelody_nonpos (m : Mood) (d : ℚ) (hd : ¬ (0 : ℚ) < d)
    (rpick npick : ℕ → ℕ) (fuel : ℕ) (evs : List MEvent)
    (h : planMelody m d rpick npick fuel = some evs) : evs = [] := by
  rcases fuel with _ | n
  · rw [planMelody, melodyLoop, if_neg hd] at h
    exact (Option.some_inj.mp h).symm
  · rw [planMelody, melodyLoop] at h
    simp only [if_neg hd] at h
    exact (Option.some_inj.mp h).symm

/-- C9: every note of every catalog mood's scale is a key of `NOTES`, and
hence any non-rest melody event the planner generates from a catalog mood
resolves in `NOTES` — the melody frequency lookup of the render loop cannot
fail. -/
theorem scale_notes_resolve :
    (∀ (name : String) (m : Mood), (name, m) ∈ MOODS →
      ∀ nb ∈ m.scale, (NOTES.lookup nb).isSome = true) ∧
    (∀ (name : String) (m : Mood), (name, m) ∈ MOODS →
      ∀ (d : ℚ) (rpick npick : ℕ → ℕ) (fuel : ℕ) (evs : List MEvent),
        planMelody m d rpick npick fuel = some evs →
        ∀ e ∈ evs, e.note ≠ REST → (NOTES.lookup e.note).isSome = true) := by
  have hall : ∀ p ∈ MOODS, ∀ nb ∈ (Prod.snd p).scale,
      (NOTES.lookup nb).isSome = true := by decide
  refine ⟨fun name m hm => hall (name, m) hm, ?_⟩
  intro name m hm d rpick npick fuel evs h e he hne
  by_cases hd : (0 : ℚ) < d
  · rcases mood_facts name m hm with ⟨hbpm, hsc, -⟩
    have hq : 0 < 60 / m.bpm := by positivity
    have hinv := melodyLoop_invariant (rhythms (60 / m.bpm)) (m.scale ++ [REST])
      d rpick npick (rhythms_pos _ hq) (by simp [rhythms]) (by simp)
      fuel 0 0 evs (le_of_lt hd) h
    have hnote : e.note ∈ m.scale ++ [REST] := (hinv.2 e he).2
    rcases List.mem_append.mp hnote with hsc' | hr
    · exact hall (name, m) hm e.note hsc'
    · exact absurd (List.mem_singleton.mp hr) hne
  · rw [planMelody_nonpos m d hd rpick npick fuel evs h] at he
    simp at he

/-- Witness for C9: `"C4"` (first scale note of `"happy"`) resolves. -/
theorem scale_notes_resolve_witness : (NOTES.lookup "C4").isSome = true :=
  scale_notes_resolve.1 "happy" happy (by decide) "C4" (by decide)

theorem sum_floor_le (l : List ℚ) : (l.map (fun x => ⌊x⌋)).sum ≤ ⌊l.sum⌋ := by
  induction l with
  | nil => simp
  | cons a t ih =>
    rw [List.map_cons, List.sum_cons, List.sum_cons]
    refine le_trans (add_le_add_left ih _) ?_
    rw [Int.le_floor]
    push_cast
    have hfa := Int.floor_le a
    have hft := Int.floor_le t.sum
    linarith

theorem cast_sum_map (l : List MEvent) (g : MEvent → ℕ) :
    (((l.map g).sum : ℕ) : ℤ) = (l.map (fun e => ((g e : ℕ) : ℤ))).sum := by
  induction l with
  | nil => simp
  | cons a t ih =>
    rw [List.map_cons, List.map_cons, List.sum_cons, List.sum_cons]
    push_cast
    rw [List.map_map]
    rfl

/-- C10: for any event sequence the planner completes for a total duration
`d > 0`, at every event the sample cursor (the sum of the truncated
per-event sample counts of the earlier events) plus the event's own length
in samples stays within the allocated buffer length `int(sampleRate·d)` —
so every slice-add of a melody or chord waveform writes entirely inside the
buffer. -/
theorem cursor_within_buffer (name : String) (m : Mood)
    (hm : (name, m) ∈ MOODS) (d : ℚ) (hd : 0 < d)
    (rpick npick : ℕ → ℕ) (fuel : ℕ) (evs : List MEvent)
    (h : planMelody m d rpick npick fuel = some evs) :
    ∀ (k : ℕ) (hk : k < evs.length),
      ((evs.take k).map (fun e => (truncInt (e.duration * sample_rate)).toNat)).sum
        + (truncInt ((evs.get ⟨k, hk⟩).duration * sample_rate)).toNat
        ≤ (truncInt (sample_rate * d)).toNat := by
  have hr : (0 : ℚ) < sample_rate := by norm_num [sample_rate]
  rcases mood_facts name m hm with ⟨hbpm, hsc, -⟩
  have hq : 0 < 60 / m.bpm := by positivity
  have hinv := melodyLoop_invariant (rhythms (60 / m.bpm)) (m.scale ++ [REST])
    d rpick npick (rhythms_pos _ hq) (by simp [rhythms]) (by simp)
    fuel 0 0 evs (le_of_lt hd) h
  have hsum : (evs.map MEvent.duration).sum = d := by simpa using hinv.1
  have hpos : ∀ e ∈ evs, 0 < e.duration := fun e he => (hinv.2 e he).1
  have hstep : ∀ e ∈ evs,
      (((truncInt (e.duration * sample_rate)).toNat : ℕ) : ℤ) =
        ⌊e.duration * sample_rate⌋ := by
    intro e he
    have hpos' : 0 ≤ e.duration * sample_rate := (mul_pos (hpos e he) hr).le
    rw [truncInt, if_pos hpos', Int.toNat_of_nonneg (Int.floor_nonneg.mpr hpos')]
  intro k hk
  have ht : evs.take (k + 1) = evs.take k ++ [evs.get ⟨k, hk⟩] := by
    have := List.take_concat_get evs k hk
    rw [List.concat_eq_append] at this
    exact this.symm
  have hS : ((evs.take k).map
        (fun e => (truncInt (e.duration * sample_rate)).toNat)).sum
      + (truncInt ((evs.get ⟨k, hk⟩).duration * sample_rate)).toNat
      = ((evs.take (k + 1)).map
        (fun e => (truncInt (e.duration * sample_rate)).toNat)).sum := by
    rw [ht, List.map_append, List.sum_append]
    simp
  rw [hS]
  have hRHSnn : 0 ≤ sample_rate * d := by positivity
  have hRHS : (((truncInt (sample_rate * d)).toNat : ℕ) : ℤ) =
      ⌊sample_rate * d⌋ := by
    rw [truncInt, if_pos hRHSnn, Int.toNat_of_nonneg (Int.floor_nonneg.mpr hRHSnn)]
  apply Nat.cast_le (α := ℤ) |>.mp
  rw [cast_sum_map, hRHS]
  have hcongr : (evs.take (k + 1)).map
      (fun e => (((truncInt (e.duration * sample_rate)).toNat : ℕ) : ℤ)) =
      (evs.take (k + 1)).map (fun e => ⌊e.duration * sample_rate⌋) :=
    List.map_congr_left (fun e he => hstep e (List.mem_of_mem_take he))
  rw [hcongr]
  have hfloor : ((evs.take (k + 1)).map
      (fun e => ⌊e.duration * sample_rate⌋)).sum ≤
      ⌊((evs.take (k + 1)).map (fun e => e.duration * sample_rate)).sum⌋ := by
    have hmm : (evs.take (k + 1)).map (fun e => ⌊e.duration * sample_rate⌋) =
        ((evs.take (k + 1)).map (fun e => e.duration * sample_rate)).map
          (fun x => ⌊x⌋) := by
      rw [List.map_map]
      rfl
    rw [hmm]
    exact sum_floor_le _
  refine le_trans hfloor ?_
  have hmul : ((evs.take (k + 1)).map
      (fun e => e.duration * sample_rate)).sum =
      ((evs.take (k + 1)).map MEvent.duration).sum * sample_rate :=
    List.sum_map_mul_right _ _ _
  rw [hmul]
  have htb : ((evs.take (k + 1)).map MEvent.duration).sum ≤ d := by
    have hsplit : evs.map MEvent.duration =
        (evs.take (k + 1)).map MEvent.duration ++
        (evs.drop (k + 1)).map MEvent.duration := by
      rw [← List.map_append, List.take_append_drop]
    have hdropnn : 0 ≤ ((evs.drop (k + 1)).map MEvent.duration).sum := by
      apply List.sum_nonneg
      intro x hx
      rcases List.mem_map.mp hx with ⟨e, he, rfl⟩
      exact (hpos e (List.mem_of_mem_drop he)).le
    have := hsum
    rw [hsplit, List.sum_append] at this
    linarith
  apply Int.floor_le_floor
  rw [mul_comm sample_rate d]
  exact mul_le_mul_of_nonneg_right htb hr.le

/-- Witness for C10 at the `"happy"` mood, `d = 1`, constant picks, second
event (`k = 1`). -/
theorem cursor_within_buffer_witness :
    ((([⟨"C4", (1 : ℚ) / 2⟩, ⟨"C4", (1 : ℚ) / 2⟩] : List MEvent).take 1).map
      (fun e => (truncInt (e.duration * sample_rate)).toNat)).sum
      + (truncInt ((([⟨"C4", (1 : ℚ) / 2⟩, ⟨"C4", (1 : ℚ) / 2⟩] :
          List MEvent).get ⟨1, by norm_num⟩).duration * sample_rate)).toNat
      ≤ (truncInt (sample_rate * 1)).toNat :=
  cursor_within_buffer "happy" happy (by decide) 1 (by norm_num)
    (fun _ => 0) (fun _ => 0) 4 [⟨"C4", (1 : ℚ) / 2⟩, ⟨"C4", (1 : ℚ) / 2⟩]
    (by norm_num [planMelody, melodyLoop, rhythms, happy, REST]) 1 (by norm_num)

end MusicGen
